import Mathlib

/-
Verification of the aat-ai EDA chat assistant.

Embedded components:
  * the markdown code-block parser (`src/utils/parsers.py`, class `MarkdownParser`);
  * the Python code validator and runtime (`src/utils/run_time.py`,
    classes `PythonValidator` and `PythonCodeRunTime`);
  * the chat widget layer (`src/chat/chat_elements.py`, classes `TextCodeRow`
    and `PythonCodeBlock`);
  * the input-disabling decorator of the chat controller
    (`src/chat/llm_chat copy.py`, `LLMConversation._disable_inputs` / `_chat`).

Python strings are modelled as lists of characters (`Str`).  The behaviour of
the Python interpreter itself (`ast.parse`, `exec`, calling a compiled
function) is not part of the repository; it enters the model as explicit data
attached to each concrete piece of Python source (see `PySource`).
-/

namespace AatAi

/-- Python strings are modelled as lists of characters. -/
abbrev Str := List Char

/-- The backtick character. -/
def tick : Char := '\x60'

/-- The triple-backtick fence delimiter used throughout the markdown layer. -/
def fence : Str := [tick, tick, tick]

/-- Python whitespace characters (`string.whitespace`), as used by `str.strip()`
and by the `\s`/`\S` classes of the `re` module on ASCII text. -/
def pyIsSpace (c : Char) : Bool :=
  c = ' ' || c = '\t' || c = '\n' || c = '\r' || c = '\x0b' || c = '\x0c'

/-- Python `str.strip()`: remove leading and trailing whitespace. -/
def pyStrip (s : Str) : Str :=
  ((s.dropWhile pyIsSpace).reverse.dropWhile pyIsSpace).reverse

/-- Python's substring test `pat in s`. -/
def containsSub (pat : Str) : Str → Bool
  | [] => pat.isEmpty
  | c :: t => pat.isPrefixOf (c :: t) || containsSub pat t

/-- A character matched by the regex class `\w` on ASCII text. -/
def isWordChar (c : Char) : Bool := c.isAlphanum || c = '_'

/-! ## MarkdownParser (src/utils/parsers.py)

`get_language` is `re.search(r"```(\w+)\n", markdown_text)`, returning group 1
of the leftmost match (or the empty string).  `get_code_block` is
`re.findall(f"```{language}(.*?)```", markdown_text, re.DOTALL | re.MULTILINE)`,
returning the first (leftmost, and lazily shortest) capture, stripped, or the
empty string; when `language is None` it is first computed by `get_language`.
The scanners below implement exactly these leftmost-match semantics. -/

/-- Attempt to match `` ```(\w+)\n `` at the start of `s`; on success return the
captured group (the maximal run of word characters after the fence, which must
be nonempty and followed by a newline — backtracking a greedy `\w+` can never
succeed otherwise, since any shorter run is followed by a word character). -/
def langAt (s : Str) : Option Str :=
  if fence.isPrefixOf s then
    let w := (s.drop 3).takeWhile isWordChar
    if w ≠ [] ∧ ((s.drop 3).drop w.length).head? = some '\n' then some w else none
  else none

/-- Leftmost-match scan for `` ```(\w+)\n ``, as performed by `re.search`. -/
def searchLang : Str → Str
  | [] => []
  | c :: t =>
    match langAt (c :: t) with
    | some w => w
    | none => searchLang t

/-- `MarkdownParser.get_language`. -/
def getLanguage (markdownText : Str) : Str := searchLang markdownText

/-- The lazy capture of `(.*?)` before the next `` ``` ``: the shortest prefix
of `s` that is followed by a fence; `none` when no fence occurs in `s`. -/
def firstCapture : Str → Option Str
  | [] => none
  | c :: t =>
    if fence.isPrefixOf (c :: t) then some []
    else (firstCapture t).map (c :: ·)

/-- Attempt to match `` ```{language}(.*?)``` `` at the start of `s`. -/
def codeAt (lang : Str) (s : Str) : Option Str :=
  if (fence ++ lang).isPrefixOf s then firstCapture (s.drop (3 + lang.length))
  else none

/-- Leftmost-match scan for `` ```{language}(.*?)``` ``, as performed by
`re.findall` followed by taking the first element. -/
def searchCode (lang : Str) : Str → Option Str
  | [] => none
  | c :: t =>
    match codeAt lang (c :: t) with
    | some cap => some cap
    | none => searchCode lang t

/-- `MarkdownParser.get_code_block`; `language = none` models the Python
default `language=None`, in which case the language is computed by
`get_language` first. -/
def getCodeBlock (markdownText : Str) (language : Option Str) : Str :=
  let lang := match language with
    | none => getLanguage markdownText
    | some l => l
  match searchCode lang markdownText with
  | some cap => pyStrip cap
  | none => []

/-- `MarkdownParser.get_result`: the `{'code': ..., 'language': ...}` dict. -/
structure ParseResult where
  code : Str
  language : Str
  deriving DecidableEq, Repr

/-- `MarkdownParser.get_result`. -/
def getResult (markdownText : Str) : ParseResult :=
  { code := getCodeBlock markdownText none
    language := getLanguage markdownText }

/-! ## TextCodeRow and PythonCodeBlock (src/chat/chat_elements.py)

`TextCodeRow.__init__` splits its text on the triple-backtick delimiter
(`text.split('```')`), renders even-indexed blocks as `StaticText` widgets
(skipping blocks that strip to nothing), renders odd-indexed blocks as code
widgets (a `PythonCodeBlock` when the detected language is `python`, otherwise
a `CodeEditor`), and finally inserts a `Divider` between consecutive widgets.
`get_information` re-serialises the widgets, joining contributions with two
newlines and dropping the leading pair. -/

/-- Python `text.split('```')`: split on non-overlapping leftmost occurrences
of the separator, keeping empty pieces. -/
def splitFence : Str → List Str
  | c1 :: c2 :: c3 :: rest =>
    if c1 = tick ∧ c2 = tick ∧ c3 = tick then
      [] :: splitFence rest
    else
      match splitFence (c2 :: c3 :: rest) with
      | p :: ps => (c1 :: p) :: ps
      | [] => [[c1]]
  | s => [s]

/-- `'```'.flatten(blocks)`, the inverse of `splitFence`. -/
def joinFence : List Str → Str
  | [] => []
  | [b] => b
  | b :: rest => b ++ fence ++ joinFence rest

/-- The string `"python"`. -/
def pythonStr : Str := "python".data

/-- The widgets a `TextCodeRow` (or a `PythonCodeBlock`) can hold right after
construction. -/
inductive ChatWidget where
  | staticText (value : Str)
  | codeEditor (code : Str) (language : Str)
  | pythonCodeBlock (code : Str)
  | runButton
  | divider
  deriving DecidableEq, Repr

/-- `PythonCodeBlock.get_information` for a freshly constructed block: its
elements are `[code_widget, run_button]`; the `CodeEditor` contributes
`'\n' + f'```python\n{code}\n```'`, the `Button` is skipped, and
`information[1:]` removes the leading newline. -/
def pythonCodeBlockInfo (code : Str) : Str :=
  fence ++ pythonStr ++ '\n' :: (code ++ '\n' :: fence)

/-- The contribution of one widget inside `TextCodeRow.get_information`:
`StaticText` yields its value, `CodeEditor` the reconstructed fenced block
`f'```{language}\n{code}\n```'`, a nested `BaseChatElement` its own
`get_information`; a `Divider` (or a bare `Button`) matches none of the
`isinstance` branches and contributes nothing. -/
def widgetInfo : ChatWidget → Option Str
  | .staticText v => some v
  | .codeEditor code lang => some (fence ++ lang ++ '\n' :: (code ++ '\n' :: fence))
  | .pythonCodeBlock code => some (pythonCodeBlockInfo code)
  | .runButton => none
  | .divider => none

/-- One step of the `get_information` loop: `information += '\n\n' + ...`
for a contributing widget, no change otherwise. -/
def infoStep (acc : Str) (w : ChatWidget) : Str :=
  match widgetInfo w with
  | some s => acc ++ '\n' :: '\n' :: s
  | none => acc

/-- `TextCodeRow.get_information`: concatenate `'\n\n' + contribution` over the
widgets, then drop the first two characters (`information[2:]`). -/
def textCodeRowInfo (ws : List ChatWidget) : Str :=
  (ws.foldl infoStep []).drop 2

/-- The widget built for an odd-indexed (code) block in `TextCodeRow.__init__`:
code and language are extracted from `'```' + block + '```'`, and a
`PythonCodeBlock` is used when the language is `python`. -/
def codeBlockWidget (block : Str) : ChatWidget :=
  let wrapped := fence ++ block ++ fence
  let code := getCodeBlock wrapped none
  let language := getLanguage wrapped
  if language = pythonStr then .pythonCodeBlock code else .codeEditor code language

/-- The widgets appended by the block loop of `TextCodeRow.__init__`; the
flag records whether the current block index is odd (a code block).  An
even-indexed block is shown stripped, and skipped entirely when it strips to
the empty string. -/
def rowWidgetsAux : List Str → Bool → List ChatWidget
  | [], _ => []
  | b :: rest, isCode =>
    if isCode then codeBlockWidget b :: rowWidgetsAux rest (!isCode)
    else if pyStrip b ≠ [] then
      ChatWidget.staticText (pyStrip b) :: rowWidgetsAux rest (!isCode)
    else rowWidgetsAux rest (!isCode)

/-- The divider-insertion loop at the end of `TextCodeRow.__init__`
(`self.insert(i * 2 + 1, pn.layout.Divider())` for `i in range(len - 1)`). -/
def addDividers : List ChatWidget → List ChatWidget
  | [] => []
  | [w] => [w]
  | w :: rest => w :: .divider :: addDividers rest

/-- The full widget list of `TextCodeRow(text)` right after construction. -/
def textCodeRowWidgets (text : Str) : List ChatWidget :=
  addDividers (rowWidgetsAux (splitFence text) false)

/-- Erase every whitespace character; two strings are "equal modulo whitespace
trimming" when their erasures agree. -/
def eraseWs (s : Str) : Str := s.filter (fun c => !pyIsSpace c)

/-! ## PythonValidator (src/utils/run_time.py)

`validate` runs, in order: the import check (which first calls
`ast.parse(code)` — a `SyntaxError` from there propagates), the link check
(`re.search(r'https?://\S+|www\.\S+', code)`), the save-function substring
check over `['open', 'write', 'save', 'dump']`, and the `exec`/`eval`
substring check.  Each failing check raises `PythonValidatorError` with a
fixed message; when every enabled check passes the method falls off the end
and returns `None`. -/

/-- Identifiers of the concrete Python functions appearing in this
development; `exec`-ing a `def` binds the name to one of these. -/
inductive FuncId where
  /-- `def f(x):\n    return math.sqrt(x)` -/
  | sqrtOfX
  /-- `def g(x):\n    return x` -/
  | identityOfX
  /-- `def f():\n    return name` for a global `name` -/
  | returnGlobal (name : String)
  deriving DecidableEq, Repr

/-- Python values appearing in this development.  `vFloat q` stands for a
float whose value is exactly the rational `q` (the only floats this
development evaluates are exact). -/
inductive PyValue where
  | vNone
  | vInt (n : ℤ)
  | vFloat (q : ℚ)
  | vStr (s : Str)
  | vModule (name : String)
  | vFunc (f : FuncId)
  deriving DecidableEq, Repr

/-- Python exceptions relevant to validation and execution. -/
inductive PyErr where
  | valueError (msg : String)
  /-- `PythonValidatorError` -/
  | validatorError (msg : String)
  | syntaxError
  | keyError (key : String)
  | typeError
  | nameError (name : String)
  /-- a float result outside the exact fragment modelled by `vFloat` -/
  | floatNotModelled
  deriving DecidableEq, Repr

/-- The mutable execution namespace: an insertion-ordered mapping from names
to values, as a Python dict. -/
abbrev PyNamespace := List (String × PyValue)

/-- Dict update `ns[k] = v`. -/
def nsSet (ns : PyNamespace) (k : String) (v : PyValue) : PyNamespace :=
  match ns with
  | [] => [(k, v)]
  | (k', v') :: rest => if k' = k then (k, v) :: rest else (k', v') :: nsSet rest k v

/-- Dict lookup `ns[k]` (as an `Option`). -/
def nsGet (ns : PyNamespace) (k : String) : Option PyValue :=
  match ns with
  | [] => none
  | (k', v') :: rest => if k' = k then some v' else nsGet rest k

/-- A piece of Python source.  The text is what the repository's own code
inspects; `parse` and `exec` record what the Python interpreter (which is not
part of the repository) does with it: `parse` is the outcome of `ast.parse`
(`none` for a `SyntaxError`, otherwise whether the AST contains an `Import` or
`ImportFrom` node), and `exec` is the effect of `exec(text, namespace)` — the
updated namespace together with an optional exception; bindings made before an
exception persist, as namespace mutation is in place. -/
structure PySource where
  text : Str
  parse : Option Bool
  exec : PyNamespace → PyNamespace × Option PyErr

/-- `PythonValidator.__init__`: four independently toggleable checks. -/
structure PythonValidator where
  check_imports : Bool
  check_links : Bool
  check_save_funcs : Bool
  check_exec_eval : Bool
  deriving DecidableEq, Repr

/-- The default `PythonValidator()` (all checks enabled). -/
def defaultValidator : PythonValidator :=
  { check_imports := true, check_links := true
    check_save_funcs := true, check_exec_eval := true }

/-- `self.save_funcs = ['open', 'write', 'save', 'dump']`. -/
def saveFuncs : List Str := ["open".data, "write".data, "save".data, "dump".data]

/-- One attempted match of `https?://\S+|www\.\S+` at the start of `s`: one of
the three literal prefixes followed by at least one non-whitespace character. -/
def linkPrefixAt (pat : Str) (s : Str) : Bool :=
  pat.isPrefixOf s &&
    match s.drop pat.length with
    | c :: _ => !pyIsSpace c
    | [] => false

/-- Does a match of `https?://\S+|www\.\S+` start at the head of `s`? -/
def linkAt (s : Str) : Bool :=
  linkPrefixAt "http://".data s || linkPrefixAt "https://".data s ||
    linkPrefixAt "www.".data s

/-- `re.search(r'https?://\S+|www\.\S+', code)` succeeds somewhere in `code`. -/
def containsLink : Str → Bool
  | [] => false
  | c :: t => linkAt (c :: t) || containsLink t

/-- `any(func in code for func in self.save_funcs)`. -/
def containsSave (code : Str) : Bool :=
  saveFuncs.any (fun f => containsSub f code)

/-- `'exec' in code or 'eval' in code`. -/
def containsExecEval (code : Str) : Bool :=
  containsSub "exec".data code || containsSub "eval".data code

/-- Outcome of `PythonValidator.validate`: fall off the end (returning
`None`), raise `PythonValidatorError` with a message, or let a `SyntaxError`
from `ast.parse` propagate. -/
inductive ValidateResult where
  | ok
  | pvError (msg : String)
  | syntaxErr
  deriving DecidableEq, Repr

/-- `PythonValidator.validate`. -/
def validate (v : PythonValidator) (code : PySource) : ValidateResult :=
  if v.check_imports && code.parse.isNone then .syntaxErr
  else if v.check_imports && code.parse = some true then
    .pvError "The code contains import statements, which are not allowed."
  else if v.check_links && containsLink code.text then
    .pvError "The code contains links, which are not allowed."
  else if v.check_save_funcs && containsSave code.text then
    .pvError "The code contains functions that might be used to save data, which are not allowed."
  else if v.check_exec_eval && containsExecEval code.text then
    .pvError "The code contains usage of exec or eval, which are not allowed."
  else .ok

/-! ## PythonCodeRunTime (src/utils/run_time.py) -/

/-- The exact natural square root, when it exists: the model of `math.sqrt`
restricted to perfect squares (where the IEEE result is exact). -/
def exactSqrt (m : Nat) : Option Nat :=
  (List.range (m + 1)).find? (fun k => k * k == m)

/-- Calling a compiled function `f(**kwargs)`.  A function compiled by
`exec(code, namespace)` resolves its free names in that same (current)
namespace, which is passed here as `globals`.  Unexpected or missing keyword
arguments raise `TypeError`; `math.sqrt` requires the name `math` to be bound
to the math module and is evaluated exactly on perfect squares (the only
float computation this repository's spec exercises, `math.sqrt(4) == 2.0`,
is exact). -/
def callFunc (f : FuncId) (globals : PyNamespace)
    (kwargs : List (String × PyValue)) : Except PyErr PyValue :=
  match f with
  | .sqrtOfX =>
    match kwargs with
    | [(k, v)] =>
      if k = "x" then
        match nsGet globals "math" with
        | some (.vModule "math") =>
          match v with
          | .vInt n =>
            if n < 0 then .error (.valueError "math domain error")
            else
              match exactSqrt n.toNat with
              | some r => .ok (.vFloat (r : ℚ))
              | none => .error .floatNotModelled
          | _ => .error .typeError
        | some _ => .error .typeError
        | none => .error (.nameError "math")
      else .error .typeError
    | _ => .error .typeError
  | .identityOfX =>
    match kwargs with
    | [(k, v)] => if k = "x" then .ok v else .error .typeError
    | _ => .error .typeError
  | .returnGlobal nm =>
    match kwargs with
    | [] =>
      match nsGet globals nm with
      | some v => .ok v
      | none => .error (.nameError nm)
    | _ => .error .typeError

/-- `PythonCodeRunTime`: imports string, seeded variables, configured function
name, optional validator, and the persistent execution namespace. -/
structure PythonCodeRunTime where
  imports : PySource
  «variables» : List (String × PyValue)
  function_name : String
  validator : Option PythonValidator
  «namespace» : PyNamespace

/-- `PythonCodeRunTime.__init__`: execute the import statements in a fresh
namespace, then add the variables to it.  An exception raised by the imports
propagates out of the constructor. -/
def mkRunTime (imports : PySource) («variables» : List (String × PyValue))
    (function_name : String) (validator : Option PythonValidator) :
    Except PyErr PythonCodeRunTime :=
  match imports.exec [] with
  | (_, some e) => .error e
  | (ns, none) =>
    .ok { imports := imports, «variables» := «variables»
          function_name := function_name, validator := validator
          «namespace» := «variables».foldl (fun acc kv => nsSet acc kv.1 kv.2) ns }

/-- `PythonCodeRunTime._compile_function`: result value (or exception) paired
with the namespace afterwards.  When a validator is attached the code first
runs `if not self.validator.validate(code): raise ValueError(...)`; a
`PythonValidatorError` or `SyntaxError` raised inside `validate` propagates,
while on validation success `validate` returns `None`, so `not None` is true
and `ValueError("Code failed validation")` is raised — `exec` is then never
reached.  Without a validator the code is executed into the shared namespace
and `self.namespace[function_name]` is returned (`KeyError` when absent). -/
def compileFunction (rt : PythonCodeRunTime) (code : PySource)
    (function_name : String) : Except PyErr PyValue × PyNamespace :=
  match rt.validator with
  | some v =>
    match validate v code with
    | .syntaxErr => (.error .syntaxError, rt.«namespace»)
    | .pvError m => (.error (.validatorError m), rt.«namespace»)
    | .ok => (.error (.valueError "Code failed validation"), rt.«namespace»)
  | none =>
    match code.exec rt.«namespace» with
    | (ns2, some err) => (.error err, ns2)
    | (ns2, none) =>
      match nsGet ns2 function_name with
      | some f => (.ok f, ns2)
      | none => (.error (.keyError function_name), ns2)

/-- `PythonCodeRunTime.run_code`: compile the function, then call it with the
seeded variables as keyword arguments.  Returns the result (or exception)
together with the runtime afterwards — its namespace keeps every mutation
made by `exec`, whether or not the call succeeded. -/
def run_code (rt : PythonCodeRunTime) (code : PySource) :
    Except PyErr PyValue × PythonCodeRunTime :=
  match compileFunction rt code rt.function_name with
  | (.error e, ns2) => (.error e, { rt with «namespace» := ns2 })
  | (.ok (.vFunc fid), ns2) =>
    (callFunc fid ns2 rt.«variables», { rt with «namespace» := ns2 })
  | (.ok _, ns2) => (.error .typeError, { rt with «namespace» := ns2 })

/-! ## LLMConversation input disabling (src/chat/llm_chat copy.py)

`_disable_inputs` wraps the coroutine `_chat`: it sets
`self.chat_box.disabled = True`, awaits the body, and in a `finally:` block
sets it back to `False`.  The body of `_chat` only manipulates the chat box's
message content (replacing the user row, appending the spinner, hiding and
restoring history, and streaming token updates into the last row); it never
touches `disabled`. -/

/-- State of the `pn.widgets.ChatBox`: the `disabled` flag and the message
list (messages abstracted to strings). -/
structure ChatBoxState where
  disabled : Bool
  value : List String
  deriving DecidableEq, Repr

/-- The chat-box content operations performed inside `_chat` (and by the
streaming callback).  None of them touches the `disabled` flag. -/
inductive ChatOp where
  | append (msg : String)
  | replaceLast (msg : String)
  | setValue (msgs : List String)
  deriving DecidableEq, Repr

/-- Apply one content operation. -/
def applyOp (s : ChatBoxState) : ChatOp → ChatBoxState
  | .append m => { s with value := s.value ++ [m] }
  | .replaceLast m => { s with value := s.value.dropLast ++ [m] }
  | .setValue v => { s with value := v }

/-- Run a sequence of content operations. -/
def runOps (s : ChatBoxState) (ops : List ChatOp) : ChatBoxState :=
  ops.foldl applyOp s

/-- Every state observable while the body runs: the state at entry and after
each operation. -/
def statesDuring (s : ChatBoxState) : List ChatOp → List ChatBoxState
  | [] => [s]
  | op :: rest => s :: statesDuring (applyOp s op) rest

/-- `LLMConversation._disable_inputs` applied to a body: disable the chat box,
run the body, re-enable it afterwards.  Returns the states observable during
the body together with the final state. -/
def disableInputsTrace (body : List ChatOp) (s0 : ChatBoxState) :
    List ChatBoxState × ChatBoxState :=
  let s1 := { s0 with disabled := true }
  (statesDuring s1 body, { runOps s1 body with disabled := false })

/-- The content operations performed by one turn of `_chat` while a response
streams in: replace the user row with a `TextCodeRow`, append the spinner row,
hide the history, stream each arriving token into the last row, run the
end-of-response callback, and restore the history. -/
def chatBody (input : String) (tokens : List String)
    (shownHistory restoredHistory : List String) : List ChatOp :=
  [ChatOp.replaceLast input, ChatOp.append "spinner", ChatOp.setValue shownHistory] ++
    tokens.map ChatOp.replaceLast ++
    [ChatOp.replaceLast "AI TextCodeRow", ChatOp.setValue restoredHistory]

/-! ## Basic lemmas about the string primitives -/

theorem containsSub_iff_isInfix {pat s : Str} : containsSub pat s = true ↔ pat <:+: s := by
  induction s with
  | nil => simp [containsSub]
  | cons c t ih => simp [containsSub, List.infix_cons_iff, ih]

theorem suffix_append_cases {t' x y : Str} (h : t' <:+ x ++ y) :
    t' <:+ y ∨ ∃ x', x' <:+ x ∧ x' ≠ [] ∧ t' = x' ++ y := by
  rcases le_or_lt t'.length y.length with hle | hlt
  · left
    rcases List.suffix_or_suffix_of_suffix h (List.suffix_append x y) with h1 | h1
    · exact h1
    · exact (h1.eq_of_length_le hle) ▸ List.suffix_rfl
  · obtain ⟨pre, hpre⟩ := h
    have hy : t'.drop (t'.length - y.length) = y := by
      have hsuf : t'.drop (t'.length - y.length) <:+ x ++ y :=
        ((List.drop_suffix _ _).trans ⟨pre, hpre⟩)
      have hlen : (t'.drop (t'.length - y.length)).length = y.length := by
        simp
        omega
      rcases List.suffix_or_suffix_of_suffix hsuf (List.suffix_append x y) with h1 | h1
      · exact h1.eq_of_length hlen
      · exact (h1.eq_of_length hlen.symm).symm
    right
    refine ⟨t'.take (t'.length - y.length), ?_, ?_, ?_⟩
    · have hx : pre ++ t'.take (t'.length - y.length) = x := by
        have hcalc : (pre ++ t'.take (t'.length - y.length)) ++ y = x ++ y := by
          calc (pre ++ t'.take (t'.length - y.length)) ++ y
              = pre ++ (t'.take (t'.length - y.length) ++ t'.drop (t'.length - y.length)) := by
                rw [hy, List.append_assoc]
            _ = x ++ y := by rw [List.take_append_drop, hpre]
        exact List.append_inj_left' hcalc rfl
      exact ⟨pre, hx⟩
    · intro hnil
      have := congrArg List.length hnil
      simp at this
      omega
    · conv_lhs => rw [← List.take_append_drop (t'.length - y.length) t']
      rw [hy]

/-! ## Lemmas about `splitFence` -/

theorem splitFence_fence_cons (rest : Str) :
    splitFence (tick :: tick :: tick :: rest) = [] :: splitFence rest := by
  rw [splitFence.eq_def]
  simp

theorem splitFence_other_cons {c1 c2 c3 : Char} (rest : Str)
    (h : ¬(c1 = tick ∧ c2 = tick ∧ c3 = tick)) {q : Str} {qs : List Str}
    (hq : splitFence (c2 :: c3 :: rest) = q :: qs) :
    splitFence (c1 :: c2 :: c3 :: rest) = (c1 :: q) :: qs := by
  rw [splitFence.eq_def]
  simp only [if_neg h, hq]

theorem splitFence_ne_nil (s : Str) : splitFence s ≠ [] := by
  induction s using splitFence.induct with
  | case1 c1 c2 c3 rest h ih => simp [splitFence, h]
  | case2 c1 c2 c3 rest h p ps hps ih => simp [splitFence, h, hps]
  | case3 c1 c2 c3 rest h hps ih => simp [splitFence, h, hps]
  | case4 s h =>
    rcases s with _ | ⟨a, _ | ⟨b, _ | ⟨c, rest⟩⟩⟩
    · simp [splitFence]
    · simp [splitFence]
    · simp [splitFence]
    · exact absurd rfl (h a b c rest)

theorem joinFence_splitFence (s : Str) : joinFence (splitFence s) = s := by
  induction s using splitFence.induct with
  | case1 c1 c2 c3 rest h ih =>
    obtain ⟨hc1, hc2, hc3⟩ := h
    subst hc1 hc2 hc3
    rw [splitFence_fence_cons]
    rcases hsp : splitFence rest with _ | ⟨p, ps⟩
    · exact absurd hsp (splitFence_ne_nil rest)
    · rw [hsp] at ih
      show [] ++ fence ++ joinFence (p :: ps) = tick :: tick :: tick :: rest
      rw [ih]
      simp [fence]
  | case2 c1 c2 c3 rest h q qs hps ih =>
    rw [splitFence_other_cons rest h hps]
    rw [hps] at ih
    cases qs with
    | nil =>
      show c1 :: q = c1 :: c2 :: c3 :: rest
      simpa [joinFence] using ih
    | cons r rs =>
      show (c1 :: q) ++ fence ++ joinFence (r :: rs) = c1 :: c2 :: c3 :: rest
      have hj : q ++ fence ++ joinFence (r :: rs) = c2 :: c3 :: rest := by
        simpa [joinFence] using ih
      rw [← hj]
      simp
  | case3 c1 c2 c3 rest h hps ih =>
    exact absurd hps (splitFence_ne_nil _)
  | case4 s h =>
    rcases s with _ | ⟨a, _ | ⟨b, _ | ⟨c, rest⟩⟩⟩
    · simp [splitFence, joinFence]
    · simp [splitFence, joinFence]
    · simp [splitFence, joinFence]
    · exact absurd rfl (h a b c rest)

theorem splitFence_head_isPrefix {s p : Str} {ps : List Str}
    (hs : splitFence s = p :: ps) : p <+: s := by
  induction s using splitFence.induct generalizing p ps with
  | case1 c1 c2 c3 rest h ih =>
    obtain ⟨hc1, hc2, hc3⟩ := h
    subst hc1 hc2 hc3
    rw [splitFence_fence_cons] at hs
    cases hs
    exact List.nil_prefix
  | case2 c1 c2 c3 rest h q qs hps ih =>
    rw [splitFence_other_cons rest h hps] at hs
    cases hs
    exact List.cons_prefix_cons.mpr ⟨rfl, ih hps⟩
  | case3 c1 c2 c3 rest h hps ih =>
    exact absurd hps (splitFence_ne_nil _)
  | case4 s h =>
    rcases s with _ | ⟨a, _ | ⟨b, _ | ⟨c, rest⟩⟩⟩
    · simp [splitFence] at hs
      simp [hs]
    · simp [splitFence] at hs
      simp [hs.1, hs.2]
    · simp [splitFence] at hs
      simp [hs.1, hs.2]
    · exact absurd rfl (h a b c rest)

theorem not_fence_infix_of_mem_splitFence {s p : Str}
    (hp : p ∈ splitFence s) : containsSub fence p = false := by
  induction s using splitFence.induct generalizing p with
  | case1 c1 c2 c3 rest h ih =>
    obtain ⟨hc1, hc2, hc3⟩ := h
    subst hc1 hc2 hc3
    rw [splitFence_fence_cons] at hp
    rcases List.mem_cons.mp hp with rfl | hmem
    · simp [containsSub, fence]
    · exact ih hmem
  | case2 c1 c2 c3 rest h q qs hps ih =>
    rw [splitFence_other_cons rest h hps] at hp
    rcases List.mem_cons.mp hp with rfl | hmem
    · have hq : q <+: c2 :: c3 :: rest := splitFence_head_isPrefix hps
      rw [Bool.eq_false_iff]
      intro htrue
      rw [containsSub_iff_isInfix] at htrue
      rcases (List.infix_cons_iff).mp htrue with hpre | hinf
      · have hfpre : fence <+: c1 :: c2 :: c3 :: rest :=
          hpre.trans (List.cons_prefix_cons.mpr ⟨rfl, hq⟩)
        rw [show fence = tick :: tick :: tick :: ([] : Str) from rfl] at hfpre
        rcases List.cons_prefix_cons.mp hfpre with ⟨h1, h2⟩
        rcases List.cons_prefix_cons.mp h2 with ⟨h2', h3⟩
        rcases List.cons_prefix_cons.mp h3 with ⟨h3', _⟩
        exact h ⟨h1.symm, h2'.symm, h3'.symm⟩
      · have hqmem : q ∈ splitFence (c2 :: c3 :: rest) := by
          rw [hps]
          exact List.mem_cons_self _ _
        have hf := ih hqmem
        rw [Bool.eq_false_iff] at hf
        exact hf (containsSub_iff_isInfix.mpr hinf)
    · have hpm : p ∈ splitFence (c2 :: c3 :: rest) := by
        rw [hps]
        exact List.mem_cons_of_mem _ hmem
      exact ih hpm
  | case3 c1 c2 c3 rest h hps ih =>
    exact absurd hps (splitFence_ne_nil _)
  | case4 s h =>
    rcases s with _ | ⟨a, _ | ⟨b, _ | ⟨c, rest⟩⟩⟩
    · simp [splitFence] at hp
      simp [hp, containsSub, fence]
    · simp [splitFence] at hp
      simp [hp, containsSub, fence, List.isPrefixOf]
    · simp [splitFence] at hp
      simp [hp, containsSub, fence, List.isPrefixOf]
    · exact absurd rfl (h a b c rest)

/-! ## Lemmas about whitespace erasure and stripping -/

theorem eraseWs_append (a b : Str) : eraseWs (a ++ b) = eraseWs a ++ eraseWs b := by
  simp [eraseWs]

theorem eraseWs_dropWhile (s : Str) : eraseWs (s.dropWhile pyIsSpace) = eraseWs s := by
  induction s with
  | nil => rfl
  | cons c t ih =>
    by_cases h : pyIsSpace c
    · simpa [List.dropWhile_cons, h, eraseWs] using ih
    · simp [List.dropWhile_cons, h]

theorem eraseWs_reverse (s : Str) : eraseWs s.reverse = (eraseWs s).reverse := by
  simp [eraseWs]

theorem eraseWs_pyStrip (s : Str) : eraseWs (pyStrip s) = eraseWs s := by
  calc eraseWs (((s.dropWhile pyIsSpace).reverse.dropWhile pyIsSpace).reverse)
      = (eraseWs ((s.dropWhile pyIsSpace).reverse.dropWhile pyIsSpace)).reverse :=
        eraseWs_reverse _
    _ = (eraseWs ((s.dropWhile pyIsSpace).reverse)).reverse := by rw [eraseWs_dropWhile]
    _ = ((eraseWs (s.dropWhile pyIsSpace)).reverse).reverse := by rw [eraseWs_reverse]
    _ = eraseWs (s.dropWhile pyIsSpace) := by simp
    _ = eraseWs s := eraseWs_dropWhile _

theorem eraseWs_eq_nil_of_pyStrip_nil {s : Str} (h : pyStrip s = []) : eraseWs s = [] := by
  have he := eraseWs_pyStrip s
  rw [h] at he
  exact he.symm

theorem eraseWs_of_forall_not_space {s : Str} (h : ∀ c ∈ s, pyIsSpace c = false) :
    eraseWs s = s := by
  apply List.filter_eq_self.mpr
  intro a ha
  simp [h a ha]

theorem isWordChar_not_space {c : Char} (h : isWordChar c = true) : pyIsSpace c = false := by
  rw [Bool.eq_false_iff]
  intro hs
  simp only [pyIsSpace, Bool.or_eq_true, decide_eq_true_eq] at hs
  rcases hs with ((((rfl | rfl) | rfl) | rfl) | rfl) | rfl <;> exact absurd h (by decide)

theorem pyStrip_cons_space {c : Char} (h : pyIsSpace c = true) (s : Str) :
    pyStrip (c :: s) = pyStrip s := by
  simp [pyStrip, List.dropWhile_cons, h]

theorem pyStrip_append_space {c : Char} (h : pyIsSpace c = true) (s : Str) :
    pyStrip (s ++ [c]) = pyStrip s := by
  unfold pyStrip
  rw [List.dropWhile_append]
  by_cases he : (s.dropWhile pyIsSpace).isEmpty
  · rw [if_pos he]
    rw [List.isEmpty_iff] at he
    simp [List.dropWhile_cons, h, he]
  · rw [if_neg he]
    simp [List.dropWhile_cons, h]

/-! ## Word-character runs -/

theorem takeWhile_word_append {l : Str} (hl : ∀ c ∈ l, isWordChar c = true)
    {c : Char} (hc : isWordChar c = false) (t : Str) :
    (l ++ c :: t).takeWhile isWordChar = l := by
  induction l with
  | nil => simp [List.takeWhile_cons, hc]
  | cons a l ih =>
    have ha := hl a (List.mem_cons_self _ _)
    have hrest := ih (fun x hx => hl x (List.mem_cons_of_mem _ hx))
    simp [List.takeWhile_cons, ha, hrest]

/-! ## Fence-prefix impossibility inside a fence-free part -/

theorem getLast?_of_suffix {m' m : Str} (h : m' <:+ m) (hne : m' ≠ []) :
    m'.getLast? = m.getLast? := by
  obtain ⟨pre, rfl⟩ := h
  exact (List.getLast?_append_of_ne_nil pre hne).symm

theorem fence_not_prefix_of_part {m' y : Str} (hne : m' ≠ [])
    (hlast : m'.getLast? = some '\n')
    (hni : containsSub fence m' = false) :
    fence.isPrefixOf (m' ++ y) = false := by
  rw [Bool.eq_false_iff]
  intro hb
  have hp : fence <+: m' ++ y := by
    rw [← List.isPrefixOf_iff_prefix ]
    exact hb
  rcases le_or_lt 3 m'.length with hge | hlt
  · have hpre : fence <+: m' := by
      rcases List.prefix_or_prefix_of_prefix hp (List.prefix_append m' y) with h1 | h1
      · exact h1
      · have : m' = fence := h1.eq_of_length_le (by simpa [fence] using hge)
        rw [this]
    have hcon : containsSub fence m' = true := containsSub_iff_isInfix.mpr hpre.isInfix
    rw [hni] at hcon
    exact Bool.false_ne_true hcon
  · rcases m' with _ | ⟨a, _ | ⟨b, rest⟩⟩
    · exact hne rfl
    · have ha : a = '\n' := by simpa using hlast
      subst ha
      rcases List.cons_prefix_cons.mp hp with ⟨h1, _⟩
      exact absurd h1 (by decide)
    · have hrest : rest = [] := by
        simp at hlt
        exact List.eq_nil_of_length_eq_zero (by omega)
      subst hrest
      have hb' : b = '\n' := by simpa using hlast
      subst hb'
      rcases List.cons_prefix_cons.mp hp with ⟨_, h2⟩
      rcases List.cons_prefix_cons.mp h2 with ⟨h2', _⟩
      exact absurd h2' (by decide)

/-! ## Characterizations of the leftmost-match scanners -/

theorem searchLang_eq_of_langAt {s w : Str} (h : langAt s = some w) : searchLang s = w := by
  cases s with
  | nil => simp [langAt, fence, List.isPrefixOf] at h
  | cons c t => simp [searchLang, h]

theorem searchLang_eq_nil {s : Str} (h : ∀ t, t <:+ s → langAt t = none) :
    searchLang s = [] := by
  induction s with
  | nil => rfl
  | cons c t ih =>
    have h0 := h (c :: t) List.suffix_rfl
    have hstep : searchLang (c :: t) = searchLang t := by simp [searchLang, h0]
    rw [hstep]
    exact ih (fun t' ht' => h t' (ht'.trans (List.suffix_cons c t)))

theorem firstCapture_append_fence {m : Str}
    (h : ∀ m', m' <:+ m → m' ≠ [] → fence.isPrefixOf (m' ++ fence) = false) :
    firstCapture (m ++ fence) = some m := by
  induction m with
  | nil => simp [firstCapture, fence, List.isPrefixOf]
  | cons c t ih =>
    have hc := h (c :: t) List.suffix_rfl (by simp)
    have hrec := ih (fun m' hm' hne => h m' (hm'.trans (List.suffix_cons c t)) hne)
    rw [List.cons_append, firstCapture]
    rw [show (c :: (t ++ fence)) = (c :: t) ++ fence from rfl, hc]
    simp [hrec]

theorem firstCapture_decomp {s cap : Str} (h : firstCapture s = some cap) :
    ∃ rest, s = cap ++ fence ++ rest := by
  induction s generalizing cap with
  | nil => simp [firstCapture] at h
  | cons c t ih =>
    rw [firstCapture] at h
    by_cases hp : fence.isPrefixOf (c :: t)
    · rw [if_pos hp] at h
      cases h
      rw [ List.isPrefixOf_iff_prefix] at hp
      obtain ⟨rest, hrest⟩ := hp
      exact ⟨rest, by simp [← hrest]⟩
    · rw [if_neg hp] at h
      rcases Option.map_eq_some'.mp h with ⟨cap', hcap', rfl⟩
      obtain ⟨rest, hrest⟩ := ih hcap'
      exact ⟨rest, by simp [hrest]⟩

theorem firstCapture_isSome_of_contains {s : Str} (h : containsSub fence s = true) :
    ∃ cap, firstCapture s = some cap := by
  induction s with
  | nil => simp [containsSub, fence] at h
  | cons c t ih =>
    by_cases hp : fence.isPrefixOf (c :: t)
    · exact ⟨[], by simp [firstCapture, hp]⟩
    · simp only [containsSub, Bool.or_eq_true] at h
      rcases h with h | h
      · exact absurd h hp
      obtain ⟨cap, hcap⟩ := ih h
      exact ⟨c :: cap, by simp [firstCapture, hp, hcap]⟩

theorem searchCode_eq_of_codeAt {lang s cap : Str} (h : codeAt lang s = some cap) :
    searchCode lang s = some cap := by
  cases s with
  | nil =>
    rw [codeAt] at h
    rw [show fence ++ lang = tick :: tick :: tick :: lang from rfl] at h
    simp [List.isPrefixOf] at h
  | cons c t => simp [searchCode, h]

/-! ## Language and code extracted from a well-formed wrapped block -/

theorem langAt_none_of_noFencePre {s : Str} (h : fence.isPrefixOf s = false) :
    langAt s = none := by
  simp [langAt, h]

/-- `langAt` fails right after the opening fence when a non-word character
follows it. -/
theorem langAt_fence_nonword {c : Char} (hc : isWordChar c = false) (z : Str) :
    langAt (fence ++ c :: z) = none := by
  have hpre : fence.isPrefixOf (fence ++ c :: z) = true := by
    rw [ List.isPrefixOf_iff_prefix]
    exact List.prefix_append _ _
  have hdrop : (fence ++ c :: z).drop 3 = c :: z := List.drop_left fence (c :: z)
  simp [langAt, hpre, hdrop, List.takeWhile_cons, hc]

theorem langAt_fence_word {l : Str} (hne : l ≠ [])
    (hl : ∀ c ∈ l, isWordChar c = true) (z : Str) :
    langAt (fence ++ (l ++ '\n' :: z)) = some l := by
  have hpre : fence.isPrefixOf (fence ++ (l ++ '\n' :: z)) = true := by
    rw [ List.isPrefixOf_iff_prefix]
    exact List.prefix_append _ _
  have hdrop : (fence ++ (l ++ '\n' :: z)).drop 3 = l ++ '\n' :: z :=
    List.drop_left fence (l ++ '\n' :: z)
  have htake : (l ++ '\n' :: z).takeWhile isWordChar = l :=
    takeWhile_word_append hl (by decide) z
  have hdrop2 : (l ++ '\n' :: z).drop l.length = '\n' :: z := List.drop_left l _
  simp [langAt, hpre, hdrop, htake, hdrop2, hne]

theorem getLanguage_wrapped_nil {body : Str}
    (hni : containsSub fence ('\n' :: (body ++ ['\n'])) = false) :
    getLanguage (fence ++ ('\n' :: (body ++ ['\n'])) ++ fence) = [] := by
  apply searchLang_eq_nil
  intro t' ht'
  rw [List.append_assoc] at ht'
  rcases suffix_append_cases ht' with h1 | ⟨f', hf', hfne, rfl⟩
  · rcases suffix_append_cases h1 with h2 | ⟨m', hm', hmne, rfl⟩
    · by_cases hp : fence.isPrefixOf t' = true
      · have hft : fence <+: t' := List.isPrefixOf_iff_prefix.mp hp
        have ht'f : t' = fence := h2.eq_of_length_le hft.length_le
        rw [ht'f]
        decide
      · exact langAt_none_of_noFencePre (Bool.eq_false_iff.mpr hp)
    · have hlast : m'.getLast? = some '\n' := by
        rw [getLast?_of_suffix hm' hmne]
        rw [show '\n' :: (body ++ ['\n']) = ('\n' :: body) ++ ['\n'] from rfl]
        exact List.getLast?_concat _
      have hm'ni : containsSub fence m' = false := by
        rw [Bool.eq_false_iff]
        intro hc
        have hmm : containsSub fence ('\n' :: (body ++ ['\n'])) = true :=
          containsSub_iff_isInfix.mpr ((containsSub_iff_isInfix.mp hc).trans hm'.isInfix)
        rw [hni] at hmm
        exact Bool.false_ne_true hmm
      exact langAt_none_of_noFencePre (fence_not_prefix_of_part hmne hlast hm'ni)
  · obtain ⟨pre, hpre⟩ := hf'
    rcases pre with _ | ⟨a, _ | ⟨b, _ | ⟨c, pre'⟩⟩⟩
    · simp only [List.nil_append] at hpre
      subst hpre
      exact langAt_fence_nonword (by decide) _
    · have : f' = [tick, tick] := by
        have := hpre
        simp [fence] at this
        simp [this.2]
      subst this
      rfl
    · have : f' = [tick] := by
        have := hpre
        simp [fence] at this
        simp [this.2.2]
      subst this
      rfl
    · exfalso
      simp only [List.cons_append, fence, List.cons.injEq] at hpre
      exact hfne (List.append_eq_nil.mp hpre.2.2.2).2

theorem getLanguage_wrapped {l body : Str} (hl : ∀ c ∈ l, isWordChar c = true)
    (hni : containsSub fence (l ++ '\n' :: (body ++ ['\n'])) = false) :
    getLanguage (fence ++ (l ++ '\n' :: (body ++ ['\n'])) ++ fence) = l := by
  rcases eq_or_ne l [] with rfl | hne
  · exact getLanguage_wrapped_nil hni
  · have hassoc : fence ++ (l ++ '\n' :: (body ++ ['\n'])) ++ fence
        = fence ++ (l ++ '\n' :: ((body ++ ['\n']) ++ fence)) := by
      simp [List.append_assoc]
    rw [hassoc]
    exact searchLang_eq_of_langAt (langAt_fence_word hne hl _)

theorem getCodeBlock_wrapped {l body : Str} (hl : ∀ c ∈ l, isWordChar c = true)
    (hni : containsSub fence (l ++ '\n' :: (body ++ ['\n'])) = false) :
    getCodeBlock (fence ++ (l ++ '\n' :: (body ++ ['\n'])) ++ fence) none
      = pyStrip body := by
  have hcap : firstCapture (('\n' :: (body ++ ['\n'])) ++ fence)
      = some ('\n' :: (body ++ ['\n'])) := by
    apply firstCapture_append_fence
    intro m' hm' hmne
    have hlast : m'.getLast? = some '\n' := by
      rw [getLast?_of_suffix hm' hmne]
      rw [show '\n' :: (body ++ ['\n']) = ('\n' :: body) ++ ['\n'] from rfl]
      exact List.getLast?_concat _
    have hmid : ('\n' :: (body ++ ['\n'])) <:+ l ++ '\n' :: (body ++ ['\n']) :=
      List.suffix_append l _
    have hm'ni : containsSub fence m' = false := by
      rw [Bool.eq_false_iff]
      intro hc
      have hcc : containsSub fence (l ++ '\n' :: (body ++ ['\n'])) = true :=
        containsSub_iff_isInfix.mpr
          (((containsSub_iff_isInfix.mp hc).trans hm'.isInfix).trans hmid.isInfix)
      rw [hni] at hcc
      exact Bool.false_ne_true hcc
    exact fence_not_prefix_of_part hmne hlast hm'ni
  have hcodeAt : codeAt l (fence ++ (l ++ '\n' :: (body ++ ['\n'])) ++ fence)
      = some ('\n' :: (body ++ ['\n'])) := by
    have hsplit : fence ++ (l ++ '\n' :: (body ++ ['\n'])) ++ fence
        = (fence ++ l) ++ (('\n' :: (body ++ ['\n'])) ++ fence) := by
      simp [List.append_assoc]
    rw [codeAt, hsplit]
    have hpre : (fence ++ l).isPrefixOf
        ((fence ++ l) ++ (('\n' :: (body ++ ['\n'])) ++ fence)) = true := by
      rw [ List.isPrefixOf_iff_prefix]
      exact List.prefix_append _ _
    rw [if_pos hpre]
    have hlen : (fence ++ l).length = 3 + l.length := by
      simp [fence]
      omega
    rw [List.drop_left' hlen, hcap]
  have hsearch := searchCode_eq_of_codeAt hcodeAt
  have hlang := getLanguage_wrapped hl hni
  simp only [getCodeBlock, hlang, hsearch]
  rw [pyStrip_cons_space (by decide), pyStrip_append_space (by decide)]

/-! ## Round-tripping a TextCodeRow -/

/-- A well-formed fenced code segment: a language tag of word characters
(possibly empty) ending the fence line, then a body, then a final newline
before the closing fence. -/
def WfCode (b : Str) : Prop :=
  ∃ l body, b = l ++ '\n' :: (body ++ ['\n']) ∧ ∀ c ∈ l, isWordChar c = true

/-- A balanced alternation of prose and well-formed code segments, as
`splitFence` produces them: an odd number of segments, the even-indexed ones
prose, the odd-indexed ones well-formed code. -/
inductive WfAlt : List Str → Prop where
  | single (p : Str) : WfAlt [p]
  | cons (p b : Str) (rest : List Str) (hb : WfCode b) (hrest : WfAlt rest) :
      WfAlt (p :: b :: rest)

theorem WfAlt.ne_nil {blocks : List Str} (h : WfAlt blocks) : blocks ≠ [] := by
  cases h <;> simp

theorem WfAlt.length_odd {blocks : List Str} (h : WfAlt blocks) :
    blocks.length % 2 = 1 := by
  induction h with
  | single p => rfl
  | cons p b rest hb hrest ih =>
    simp only [List.length_cons]
    omega

theorem joinFence_cons₂ {b : Str} {rest : List Str} (h : rest ≠ []) :
    joinFence (b :: rest) = b ++ fence ++ joinFence rest := by
  cases rest with
  | nil => exact absurd rfl h
  | cons q qs => rfl

/-- The contribution of one widget to the pre-truncation `get_information`
string. -/
def chunkOf (w : ChatWidget) : Str :=
  match widgetInfo w with
  | some s => '\n' :: '\n' :: s
  | none => []

theorem foldl_infoStep_acc (ws : List ChatWidget) (acc : Str) :
    ws.foldl infoStep acc = acc ++ ws.foldl infoStep [] := by
  induction ws generalizing acc with
  | nil => simp
  | cons w ws ih =>
    rw [List.foldl_cons, List.foldl_cons, ih (infoStep acc w), ih (infoStep [] w)]
    cases hw : widgetInfo w <;> simp [infoStep, hw]

theorem foldl_infoStep_nil (ws : List ChatWidget) :
    ws.foldl infoStep [] = (ws.map chunkOf).flatten := by
  induction ws with
  | nil => rfl
  | cons w ws ih =>
    rw [List.foldl_cons, foldl_infoStep_acc, ih]
    cases hw : widgetInfo w <;> simp [infoStep, chunkOf, hw]

theorem foldl_infoStep_addDividers (ws : List ChatWidget) (acc : Str) :
    (addDividers ws).foldl infoStep acc = ws.foldl infoStep acc := by
  induction ws using addDividers.induct generalizing acc with
  | case1 => rfl
  | case2 w => rfl
  | case3 w rest hne ih =>
    have hstep : addDividers (w :: rest) = w :: .divider :: addDividers rest := by
      cases rest with
      | nil => exact (hne rfl).elim
      | cons r rs => rfl
    rw [hstep]
    show (addDividers rest).foldl infoStep (infoStep (infoStep acc w) .divider)
      = (w :: rest).foldl infoStep acc
    rw [show infoStep (infoStep acc w) .divider = infoStep acc w from rfl]
    rw [ih]
    rfl

theorem textCodeRowInfo_addDividers (ws : List ChatWidget) :
    textCodeRowInfo (addDividers ws) = textCodeRowInfo ws := by
  unfold textCodeRowInfo
  rw [foldl_infoStep_addDividers]

theorem chunks_shape (ws : List ChatWidget) :
    (ws.map chunkOf).flatten = [] ∨ ∃ z, (ws.map chunkOf).flatten = '\n' :: '\n' :: z := by
  induction ws with
  | nil => left; rfl
  | cons w ws ih =>
    cases hw : widgetInfo w with
    | none => simpa [chunkOf, hw] using ih
    | some s => right; exact ⟨s ++ (ws.map chunkOf).flatten, by simp [chunkOf, hw]⟩

theorem eraseWs_nl_cons (s : Str) : eraseWs ('\n' :: s) = eraseWs s := rfl

theorem eraseWs_textCodeRowInfo (ws : List ChatWidget) :
    eraseWs (textCodeRowInfo ws) = eraseWs ((ws.map chunkOf).flatten) := by
  unfold textCodeRowInfo
  rw [foldl_infoStep_nil]
  rcases chunks_shape ws with h | ⟨z, h⟩ <;> rw [h]
  · rfl
  · rfl

theorem eraseWs_join (ls : List Str) : eraseWs ls.flatten = (ls.map eraseWs).flatten := by
  induction ls with
  | nil => rfl
  | cons a ls ih => simp [eraseWs_append, ih]

theorem widgetInfo_codeWidget (l code : Str) :
    widgetInfo (if l = pythonStr then ChatWidget.pythonCodeBlock code
      else ChatWidget.codeEditor code l)
      = some (fence ++ l ++ '\n' :: (code ++ '\n' :: fence)) := by
  by_cases hp : l = pythonStr
  · subst hp
    rfl
  · simp [hp, widgetInfo]

theorem eraseWs_code_contribution (l code : Str)
    (hl : ∀ c ∈ l, isWordChar c = true) :
    eraseWs (fence ++ l ++ '\n' :: (code ++ '\n' :: fence))
      = fence ++ l ++ eraseWs code ++ fence := by
  have hfe : eraseWs fence = fence := rfl
  have hl' : eraseWs l = l :=
    eraseWs_of_forall_not_space (fun c hc => isWordChar_not_space (hl c hc))
  rw [eraseWs_append, eraseWs_append, hfe, hl', eraseWs_nl_cons, eraseWs_append]
  rw [show eraseWs ('\n' :: fence) = fence from rfl]
  simp [List.append_assoc]

/-- The widget built for a well-formed code block carries language `l` and
code `pyStrip body`. -/
theorem codeBlockWidget_wf {l body : Str} (hl : ∀ c ∈ l, isWordChar c = true)
    (hni : containsSub fence (l ++ '\n' :: (body ++ ['\n'])) = false) :
    codeBlockWidget (l ++ '\n' :: (body ++ ['\n']))
      = (if l = pythonStr then ChatWidget.pythonCodeBlock (pyStrip body)
          else ChatWidget.codeEditor (pyStrip body) l) := by
  show (if getLanguage (fence ++ (l ++ '\n' :: (body ++ ['\n'])) ++ fence) = pythonStr
      then ChatWidget.pythonCodeBlock
        (getCodeBlock (fence ++ (l ++ '\n' :: (body ++ ['\n'])) ++ fence) none)
      else ChatWidget.codeEditor
        (getCodeBlock (fence ++ (l ++ '\n' :: (body ++ ['\n'])) ++ fence) none)
        (getLanguage (fence ++ (l ++ '\n' :: (body ++ ['\n'])) ++ fence)))
    = (if l = pythonStr then ChatWidget.pythonCodeBlock (pyStrip body)
        else ChatWidget.codeEditor (pyStrip body) l)
  rw [getCodeBlock_wrapped hl hni, getLanguage_wrapped hl hni]

theorem eraseWs_chunks_blocks (blocks : List Str) (hwf : WfAlt blocks)
    (hnf : ∀ p ∈ blocks, containsSub fence p = false) :
    eraseWs (((rowWidgetsAux blocks false).map chunkOf).flatten)
      = eraseWs (joinFence blocks) := by
  induction hwf with
  | single p =>
    by_cases hp : pyStrip p = []
    · simp [rowWidgetsAux, hp, joinFence]
      exact (eraseWs_eq_nil_of_pyStrip_nil hp).symm
    · simp only [rowWidgetsAux, if_neg (by simp : ¬(false = true)), if_pos hp]
      show eraseWs (chunkOf (ChatWidget.staticText (pyStrip p)) ++ []) = eraseWs (joinFence [p])
      rw [List.append_nil]
      show eraseWs ('\n' :: '\n' :: pyStrip p) = eraseWs p
      rw [eraseWs_nl_cons, eraseWs_nl_cons, eraseWs_pyStrip]
  | cons p b rest hb hrest ih =>
    obtain ⟨l, body, rfl, hl⟩ := hb
    have hnfb : containsSub fence (l ++ '\n' :: (body ++ ['\n'])) = false :=
      hnf _ (by simp)
    have hnfp : ∀ q ∈ rest, containsSub fence q = false :=
      fun q hq => hnf q (by simp [hq])
    have ihr := ih hnfp
    have hwidgets : rowWidgetsAux (p :: (l ++ '\n' :: (body ++ ['\n'])) :: rest) false
        = (if pyStrip p ≠ [] then [ChatWidget.staticText (pyStrip p)] else [])
          ++ codeBlockWidget (l ++ '\n' :: (body ++ ['\n'])) :: rowWidgetsAux rest false := by
      by_cases hp : pyStrip p = []
      · simp [rowWidgetsAux, hp]
      · simp [rowWidgetsAux, hp]
    rw [hwidgets, codeBlockWidget_wf hl hnfb]
    have hjoin : joinFence (p :: (l ++ '\n' :: (body ++ ['\n'])) :: rest)
        = p ++ fence ++ ((l ++ '\n' :: (body ++ ['\n'])) ++ fence ++ joinFence rest) := by
      rw [show joinFence (p :: (l ++ '\n' :: (body ++ ['\n'])) :: rest)
          = p ++ fence ++ joinFence ((l ++ '\n' :: (body ++ ['\n'])) :: rest) from rfl]
      rw [joinFence_cons₂ hrest.ne_nil]
    rw [hjoin]
    have hchunk : eraseWs (chunkOf (if l = pythonStr
        then ChatWidget.pythonCodeBlock (pyStrip body)
        else ChatWidget.codeEditor (pyStrip body) l))
        = fence ++ l ++ eraseWs body ++ fence := by
      rw [chunkOf, widgetInfo_codeWidget]
      rw [show eraseWs ('\n' :: '\n' :: (fence ++ l ++ '\n' :: (pyStrip body ++ '\n' :: fence)))
          = eraseWs (fence ++ l ++ '\n' :: (pyStrip body ++ '\n' :: fence)) from rfl]
      rw [eraseWs_code_contribution l _ hl, eraseWs_pyStrip]
    have hproseWs : eraseWs ((if pyStrip p ≠ [] then [ChatWidget.staticText (pyStrip p)]
        else []).map chunkOf).flatten = eraseWs p := by
      by_cases hp : pyStrip p = []
      · simp [hp]
        exact (eraseWs_eq_nil_of_pyStrip_nil hp).symm
      · simp only [if_pos hp, List.map_cons, List.map_nil, List.flatten]
        show eraseWs ('\n' :: '\n' :: pyStrip p ++ []) = eraseWs p
        rw [List.append_nil, eraseWs_nl_cons, eraseWs_nl_cons, eraseWs_pyStrip]
    have heraseb : eraseWs (l ++ '\n' :: (body ++ ['\n'])) = l ++ eraseWs body := by
      rw [eraseWs_append, eraseWs_nl_cons, eraseWs_append]
      rw [eraseWs_of_forall_not_space (fun c hc => isWordChar_not_space (hl c hc))]
      rw [show eraseWs ['\n'] = [] from rfl, List.append_nil]
    rw [List.map_append, List.flatten_append, List.map_cons, List.flatten]
    rw [eraseWs_append, eraseWs_append, hproseWs, hchunk, ihr]
    rw [eraseWs_append, eraseWs_append, eraseWs_append, eraseWs_append, heraseb]
    rw [show eraseWs fence = fence from rfl]
    simp [List.append_assoc]

instance : DecidableEq (Except PyErr PyValue) := fun a b =>
  match a, b with
  | .ok x, .ok y =>
    if h : x = y then .isTrue (by rw [h]) else .isFalse (by simp [h])
  | .error x, .error y =>
    if h : x = y then .isTrue (by rw [h]) else .isFalse (by simp [h])
  | .ok _, .error _ => .isFalse (by simp)
  | .error _, .ok _ => .isFalse (by simp)

/-! ## Concrete Python sources used by the claims

Each `PySource` bundles the literal text with what the Python interpreter
does with it: the `ast.parse` outcome and the effect of `exec` on a
namespace. -/

/-- The empty import string `""`: `exec("", ns)` does nothing. -/
def emptySrc : PySource :=
  { text := []
    parse := some false
    exec := fun ns => (ns, none) }

/-- `"import math"`: parses with an `Import` node; `exec` binds `math`. -/
def importMathSrc : PySource :=
  { text := "import math".data
    parse := some true
    exec := fun ns => (nsSet ns "math" (.vModule "math"), none) }

/-- `"import os"`: parses with an `Import` node; `exec` binds `os`. -/
def importOsSrc : PySource :=
  { text := "import os".data
    parse := some true
    exec := fun ns => (nsSet ns "os" (.vModule "os"), none) }

/-- `"x = 1  # see http://example.com"`: a link inside a comment. -/
def linkSrc : PySource :=
  { text := "x = 1  # see http://example.com".data
    parse := some false
    exec := fun ns => (nsSet ns "x" (.vInt 1), none) }

/-- `eval("1 + 1")` as an expression statement. -/
def evalSrc : PySource :=
  { text := "eval(\"1 + 1\")".data
    parse := some false
    exec := fun ns => (ns, none) }

/-- `"x = 1"`: uses none of the banned patterns. -/
def cleanSrc : PySource :=
  { text := "x = 1".data
    parse := some false
    exec := fun ns => (nsSet ns "x" (.vInt 1), none) }

/-- `"def f(x):\n    return x"`: binds `f` to the identity function; uses no
banned pattern. -/
def defFSrc : PySource :=
  { text := "def f(x):\n    return x".data
    parse := some false
    exec := fun ns => (nsSet ns "f" (.vFunc .identityOfX), none) }

/-- `"def g(x):\n    return x"`: binds only `g`. -/
def defGSrc : PySource :=
  { text := "def g(x):\n    return x".data
    parse := some false
    exec := fun ns => (nsSet ns "g" (.vFunc .identityOfX), none) }

/-- `"def f(x):\n    return math.sqrt(x)"`: binds `f` to a function reading
`math` from its globals. -/
def sqrtFSrc : PySource :=
  { text := "def f(x):\n    return math.sqrt(x)".data
    parse := some false
    exec := fun ns => (nsSet ns "f" (.vFunc .sqrtOfX), none) }

/-- `"b = 7"`: binds `b`. -/
def assignBSrc : PySource :=
  { text := "b = 7".data
    parse := some false
    exec := fun ns => (nsSet ns "b" (.vInt 7), none) }

/-- `"def f():\n    return b"`: binds `f` to a function reading the global
`b` at call time. -/
def defFReturnsBSrc : PySource :=
  { text := "def f():\n    return b".data
    parse := some false
    exec := fun ns => (nsSet ns "f" (.vFunc (.returnGlobal "b")), none) }

/-- `"x = ("`: a `SyntaxError` under `ast.parse`, and no banned substring. -/
def malformedSrc : PySource :=
  { text := "x = (".data
    parse := none
    exec := fun ns => (ns, some .syntaxError) }

/-- A `PythonValidator(check_imports=False)`. -/
def noImportCheckValidator : PythonValidator :=
  { check_imports := false, check_links := true
    check_save_funcs := true, check_exec_eval := true }

/-- The runtime `PythonCodeRunTime(imports="", variables={}, function_name="f",
validator=PythonValidator())` right after `__init__`. -/
def rtC1 : PythonCodeRunTime :=
  { imports := emptySrc, «variables» := [], function_name := "f"
    validator := some defaultValidator, «namespace» := [] }

/-- The runtime `PythonCodeRunTime(imports="import math", variables={"x": 4},
function_name="f")` (no validator) right after `__init__`. -/
def rtC3 : PythonCodeRunTime :=
  { imports := importMathSrc, «variables» := [("x", .vInt 4)]
    function_name := "f", validator := none
    «namespace» := [("math", .vModule "math"), ("x", .vInt 4)] }

/-- A runtime with no validator, no variables and expected function name
`f`. -/
def rtC7 : PythonCodeRunTime :=
  { imports := emptySrc, «variables» := [], function_name := "f"
    validator := none, «namespace» := [] }

/-- A runtime with the default expected function name `eda_function`. -/
def rtC8 : PythonCodeRunTime :=
  { imports := emptySrc, «variables» := [("x", .vInt 1)]
    function_name := "eda_function", validator := none
    «namespace» := [("x", .vInt 1)] }

/-! ## Claim theorems -/

/-- Claim C1 (code bug).  Whenever a validator is attached and every enabled
check passes, `validate` falls off the end and returns `None`; the guard
`if not self.validator.validate(code)` in `_compile_function` therefore takes
its then-branch and raises `ValueError("Code failed validation")` — so
`run_code` fails on validation *success* and never reaches `exec`,
contradicting the spec's contract that execution proceeds after successful
validation (and the code's own comment that passing checks implies success).
Concretely, the runtime built exactly as in `scripts/test_run.py` (a
`PythonCodeRunTime` with `PythonValidator()`) rejects the innocuous
`def f(x): return x`. -/
theorem C1_validation_success_raises :
    (∀ (rt : PythonCodeRunTime) (code : PySource) (v : PythonValidator),
      rt.validator = some v → validate v code = .ok →
      run_code rt code = (.error (.valueError "Code failed validation"), rt)) ∧
    mkRunTime emptySrc [] "f" (some defaultValidator) = .ok rtC1 ∧
    validate defaultValidator defFSrc = .ok ∧
    run_code rtC1 defFSrc = (.error (.valueError "Code failed validation"), rtC1) := by
  refine ⟨?_, rfl, by decide, rfl⟩
  intro rt code v hv hval
  have hc : compileFunction rt code rt.function_name
      = (.error (.valueError "Code failed validation"), rt.«namespace») := by
    simp [compileFunction, hv, hval]
  simp only [run_code, hc]

/-- Claim C1, witness: the general statement applied to the concrete runtime
and code. -/
theorem C1_validation_success_raises_witness :
    run_code rtC1 defFSrc = (.error (.valueError "Code failed validation"), rtC1) :=
  C1_validation_success_raises.1 rtC1 defFSrc defaultValidator rfl (by decide)

/-- Claim C2 (confirmed).  For syntactically valid code,
`PythonValidator.validate` raises `PythonValidatorError` exactly when some
enabled check's condition holds: an import statement in the AST, an
`http(s)://`/`www.` link substring, one of the save-like substrings
`open`/`write`/`save`/`dump`, or the substring `exec`/`eval`.  In particular
the default validator rejects `import os`, code containing
`http://example.com`, and code containing `eval(`, and accepts code with none
of the banned patterns. -/
theorem C2_validate_iff :
    (∀ (v : PythonValidator) (code : PySource) (hi : Bool),
      code.parse = some hi →
      ((∃ m, validate v code = .pvError m) ↔
        (v.check_imports = true ∧ hi = true) ∨
        (v.check_links = true ∧ containsLink code.text = true) ∨
        (v.check_save_funcs = true ∧ containsSave code.text = true) ∨
        (v.check_exec_eval = true ∧ containsExecEval code.text = true))) ∧
    validate defaultValidator importOsSrc
      = .pvError "The code contains import statements, which are not allowed." ∧
    validate defaultValidator linkSrc
      = .pvError "The code contains links, which are not allowed." ∧
    validate defaultValidator evalSrc
      = .pvError "The code contains usage of exec or eval, which are not allowed." ∧
    validate defaultValidator cleanSrc = .ok := by
  refine ⟨?_, by decide, by decide, by decide, by decide⟩
  intro v code hi hparse
  simp only [validate, hparse, Option.isNone_some, Bool.and_false, Bool.false_eq_true,
    if_false, Option.some.injEq]
  split_ifs with h1 h2 h3 h4 <;>
    simp_all [Bool.and_eq_true, decide_eq_true_eq]

/-- Claim C2, witness: the equivalence applied to the default validator and
the `import os` source. -/
theorem C2_validate_iff_witness :
    ∃ m, validate defaultValidator importOsSrc = .pvError m :=
  (C2_validate_iff.1 defaultValidator importOsSrc true rfl).mpr
    (Or.inl ⟨rfl, rfl⟩)

/-- Claim C3 (confirmed).  With imports `"import math"`, variables
`{"x": 4}` and function name `"f"`, and no validator, running
`def f(x): return math.sqrt(x)` returns the float `2.0` (modelled as the
exact rational `2`).  In general, when the validator is absent, `exec`
succeeds, and the configured name is bound to a function, `run_code` calls
exactly that function with the seeded variables as keyword arguments and
returns its result unchanged. -/
theorem C3_run_code_sqrt :
    mkRunTime importMathSrc [("x", .vInt 4)] "f" none = .ok rtC3 ∧
    (run_code rtC3 sqrtFSrc).1 = .ok (.vFloat 2) ∧
    (∀ (rt : PythonCodeRunTime) (code : PySource) (ns2 : PyNamespace)
      (fid : FuncId),
      rt.validator = none →
      code.exec rt.«namespace» = (ns2, none) →
      nsGet ns2 rt.function_name = some (.vFunc fid) →
      run_code rt code
        = (callFunc fid ns2 rt.«variables», { rt with «namespace» := ns2 })) := by
  refine ⟨rfl, ?_, ?_⟩
  · show (run_code rtC3 sqrtFSrc).1 = .ok (.vFloat 2)
    rfl
  intro rt code ns2 fid hv hexec hget
  have hc : compileFunction rt code rt.function_name = (.ok (.vFunc fid), ns2) := by
    simp [compileFunction, hv, hexec, hget]
  simp only [run_code, hc]

/-- Claim C3, witness: the general dispatch statement applied to the concrete
runtime, code and namespace. -/
theorem C3_run_code_sqrt_witness :
    run_code rtC3 sqrtFSrc
      = (callFunc .sqrtOfX
          [("math", .vModule "math"), ("x", .vInt 4), ("f", .vFunc .sqrtOfX)]
          rtC3.«variables»,
        { rtC3 with «namespace» :=
          [("math", .vModule "math"), ("x", .vInt 4), ("f", .vFunc .sqrtOfX)] }) :=
  C3_run_code_sqrt.2.2 rtC3 sqrtFSrc
    [("math", .vModule "math"), ("x", .vInt 4), ("f", .vFunc .sqrtOfX)]
    .sqrtOfX rfl rfl rfl

/-- The C4 counterexample text `"````x\n```"`: its fence count is balanced
(split yields three segments), but the code segment starts with a stray
backtick, so the language scan matches one position into the leftover
backtick run and a backtick of content is lost by the round trip. -/
def c4Text : Str := "````x\n```".data

/-- Claim C4 (counterexample).  `c4Text` contains balanced triple-backtick
fences (an odd number of split segments), yet re-serialising the
`TextCodeRow` built from it does not reproduce the text even after erasing
every whitespace character: the rendering is `` ```x\n\n``` `` while the
original is `` ````x\n``` `` — a backtick is lost, which no amount of
whitespace trimming explains. -/
theorem C4_roundtrip_counterexample :
    (splitFence c4Text).length % 2 = 1 ∧
    eraseWs (textCodeRowInfo (textCodeRowWidgets c4Text)) ≠ eraseWs c4Text := by
  exact ⟨by decide, by decide⟩

/-- Claim C4 (amended).  For texts whose triple-backtick split is a balanced
alternation of prose and *well-formed* code segments — each code segment a
word-character language tag (possibly empty) followed by a newline, a body,
and a final newline — rendering the `TextCodeRow` and re-serialising it with
`get_information` reproduces the original text modulo whitespace trimming:
the two strings agree after erasing every whitespace character.  (For
arbitrary balanced texts the claim fails; see the counterexample.) -/
theorem C4_roundtrip_amended (text : Str) (hwf : WfAlt (splitFence text)) :
    eraseWs (textCodeRowInfo (textCodeRowWidgets text)) = eraseWs text := by
  have hnf : ∀ p ∈ splitFence text, containsSub fence p = false :=
    fun p hp => not_fence_infix_of_mem_splitFence hp
  unfold textCodeRowWidgets
  rw [textCodeRowInfo_addDividers, eraseWs_textCodeRowInfo,
    eraseWs_chunks_blocks _ hwf hnf, joinFence_splitFence]

/-- A well-formed chat message for the C4 witness. -/
def c4WitnessText : Str := "Intro ```python\nx = 1\n``` outro".data

/-- Claim C4, witness: the amended round trip at a concrete message with one
well-formed python block. -/
theorem C4_roundtrip_amended_witness :
    eraseWs (textCodeRowInfo (textCodeRowWidgets c4WitnessText))
      = eraseWs c4WitnessText := by
  apply C4_roundtrip_amended
  have hsp : splitFence c4WitnessText
      = ["Intro ".data, "python\nx = 1\n".data, " outro".data] := by decide
  rw [hsp]
  exact WfAlt.cons _ _ _
    ⟨"python".data, "x = 1".data, by decide, by decide⟩ (WfAlt.single _)

/-- Decidable rendering of "code and language come from the same span": at
some position the text contains `` ``` `` followed by exactly the returned
language tag and a newline, and the text from after that newline up to the
next `` ``` `` strips to the returned code. -/
def sameSpanB (t : Str) : Bool :=
  (List.range (t.length + 1)).any (fun i =>
    (fence ++ getLanguage t ++ ['\n']).isPrefixOf (t.drop i) &&
    (List.range (t.length + 1)).any (fun k =>
      fence.isPrefixOf ((t.drop (i + 3 + (getLanguage t).length + 1)).drop k) &&
      (getCodeBlock t none == pyStrip ((t.drop (i + 3 + (getLanguage t).length + 1)).take k))))

/-- The C5 counterexample text: the language tag `py` is read from the second
block, but `` ```py `` first occurs inside `` ```python `` of the first
block, so the extracted code `thon a` comes from a different span. -/
def c5Text : Str := "```python a``` ```py\nz\n```".data

/-- Claim C5 (counterexample).  On `c5Text`, `get_result` returns language
`py` (read from the second block's fence) but code `thon a` (captured right
after the `` ```py `` occurrence inside `` ```python a ``): no single span
carries both the returned tag and the returned code. -/
theorem C5_same_span_counterexample :
    getResult c5Text = ⟨"thon a".data, "py".data⟩ ∧ sameSpanB c5Text = false := by
  exact ⟨by decide, by decide⟩

/-- Claim C5 (amended).  When the text *begins* with a tagged fence (three
backticks, a nonempty word-character tag, a newline) and a closing fence
exists later, `get_result`'s language is that first tag and its code is
stripped from the span between that tag and the next fence — the same span.
In general (see the counterexample) the code may be captured at an earlier
occurrence of `` ``` `` followed by the tag's characters, a different span
from the one the tag was read from. -/
theorem C5_same_span_amended (l rest : Str) (hne : l ≠ [])
    (hl : ∀ c ∈ l, isWordChar c = true)
    (hclose : containsSub fence rest = true) :
    getLanguage (fence ++ (l ++ '\n' :: rest)) = l ∧
    sameSpanB (fence ++ (l ++ '\n' :: rest)) = true := by
  have hlang : getLanguage (fence ++ (l ++ '\n' :: rest)) = l :=
    searchLang_eq_of_langAt (langAt_fence_word hne hl rest)
  obtain ⟨cap, hcap⟩ := firstCapture_isSome_of_contains hclose
  obtain ⟨rest2, hrest2⟩ := firstCapture_decomp hcap
  have hsplit1 : fence ++ (l ++ '\n' :: rest) = (fence ++ l) ++ ('\n' :: rest) := by
    simp
  have hpre : (fence ++ l).isPrefixOf (fence ++ (l ++ '\n' :: rest)) = true := by
    rw [ List.isPrefixOf_iff_prefix, hsplit1]
    exact List.prefix_append _ _
  have hdropl : (fence ++ (l ++ '\n' :: rest)).drop (3 + l.length) = '\n' :: rest := by
    rw [hsplit1]
    exact List.drop_left' (by simp [fence]; omega)
  have hca : codeAt l (fence ++ (l ++ '\n' :: rest)) = some ('\n' :: cap) := by
    simp only [codeAt, hpre, if_true, hdropl]
    rw [show firstCapture ('\n' :: rest) = (firstCapture rest).map ('\n' :: ·) from rfl]
    rw [hcap]
    rfl
  have hcode : getCodeBlock (fence ++ (l ++ '\n' :: rest)) none = pyStrip cap := by
    have hs := searchCode_eq_of_codeAt hca
    simp only [getCodeBlock, hlang, hs]
    exact pyStrip_cons_space (by decide) cap
  refine ⟨hlang, ?_⟩
  simp only [sameSpanB, hlang, hcode]
  rw [List.any_eq_true]
  refine ⟨0, List.mem_range.mpr (by omega), ?_⟩
  rw [Bool.and_eq_true]
  have hdrops : (fence ++ (l ++ '\n' :: rest)).drop (0 + 3 + l.length + 1) = rest := by
    rw [show fence ++ (l ++ '\n' :: rest) = ((fence ++ l) ++ ['\n']) ++ rest by simp]
    exact List.drop_left' (by simp [fence]; omega)
  constructor
  · rw [List.drop_zero, List.isPrefixOf_iff_prefix ]
    exact ⟨rest, by simp⟩
  · rw [List.any_eq_true]
    refine ⟨cap.length, List.mem_range.mpr ?_, ?_⟩
    · have hlenr := congrArg List.length hrest2
      simp [fence] at hlenr
      simp
      omega
    · rw [Bool.and_eq_true]
      have hrest2' : rest = cap ++ (fence ++ rest2) := by
        rw [hrest2]
        simp
      constructor
      · rw [hdrops, hrest2', List.drop_left, List.isPrefixOf_iff_prefix ]
        exact List.prefix_append _ _
      · rw [hdrops, hrest2', List.take_left]
        exact beq_self_eq_true _

/-- Claim C5, witness: the amended statement at a concrete tagged block. -/
theorem C5_same_span_amended_witness :
    getLanguage (fence ++ ("python".data ++ '\n' :: "x\n```".data)) = "python".data ∧
    sameSpanB (fence ++ ("python".data ++ '\n' :: "x\n```".data)) = true :=
  C5_same_span_amended "python".data "x\n```".data (by decide) (by decide) (by decide)

/-! ## C9: parser basics -/

theorem getLanguage_eq_nil_of_no_fence {t : Str}
    (h : containsSub fence t = false) : getLanguage t = [] := by
  apply searchLang_eq_nil
  intro t' ht'
  apply langAt_none_of_noFencePre
  rw [Bool.eq_false_iff]
  intro hp
  have hc : containsSub fence t = true :=
    containsSub_iff_isInfix.mpr
      ((( List.isPrefixOf_iff_prefix.mp hp).isInfix).trans ht'.isInfix)
  rw [h] at hc
  exact Bool.false_ne_true hc

theorem searchCode_none_of_no_fence {lang t : Str}
    (h : containsSub fence t = false) : searchCode lang t = none := by
  induction t with
  | nil => rfl
  | cons c s ih =>
    have hparts : fence.isPrefixOf (c :: s) = false ∧ containsSub fence s = false := by
      rw [containsSub, Bool.or_eq_false_iff] at h
      exact h
    have hfl : (fence ++ lang).isPrefixOf (c :: s) = false := by
      rw [Bool.eq_false_iff]
      intro hp
      have h1 : fence <+: c :: s :=
        (List.prefix_append fence lang).trans (List.isPrefixOf_iff_prefix.mp hp)
      rw [← List.isPrefixOf_iff_prefix , hparts.1] at h1
      exact Bool.false_ne_true h1
    simp [searchCode, codeAt, hfl, ih hparts.2]

theorem getCodeBlock_eq_nil_of_no_fence {t : Str}
    (h : containsSub fence t = false) : getCodeBlock t none = [] := by
  simp only [getCodeBlock, searchCode_none_of_no_fence h]

/-- A fenced block with no language tag. -/
def c9NoTag : Str := "```\ncode\n```".data

/-- Claim C9 (counterexample).  On markdown with fences but no language tag,
`get_language` returns the empty string, but `get_code_block` returns the
block's body (`"code"`), not the empty string — against the claim's reading
that both functions return the empty string whenever the tag is missing. -/
theorem C9_parser_counterexample :
    getLanguage c9NoTag = [] ∧ getCodeBlock c9NoTag none = "code".data ∧
    "code".data ≠ ([] : Str) := ⟨by decide, by decide, by decide⟩

/-- Claim C9 (amended).  `get_language("```python\ncode\n```") = "python"`
and `get_code_block` of the same string is `"code"`; on text containing no
triple-backtick fence at all, both `get_code_block` and `get_language` return
the empty string rather than failing.  (On fenced text without a tag only
`get_language` is empty; `get_code_block` still returns the first block's
body — see the counterexample.) -/
theorem C9_parser_basics_amended :
    getLanguage "```python\ncode\n```".data = "python".data ∧
    getCodeBlock "```python\ncode\n```".data none = "code".data ∧
    (∀ t : Str, containsSub fence t = false →
      getLanguage t = [] ∧ getCodeBlock t none = []) := by
  refine ⟨by decide, by decide, ?_⟩
  intro t h
  exact ⟨getLanguage_eq_nil_of_no_fence h, getCodeBlock_eq_nil_of_no_fence h⟩

/-- Claim C9, witness: the fence-free case at a concrete string. -/
theorem C9_parser_basics_amended_witness :
    getLanguage "no fences here".data = [] ∧
    getCodeBlock "no fences here".data none = [] :=
  C9_parser_basics_amended.2.2 "no fences here".data (by decide)

/-! ## C6: input disabled while a turn is in flight -/

theorem applyOp_preserves_disabled (s : ChatBoxState) (op : ChatOp) :
    (applyOp s op).disabled = s.disabled := by
  cases op <;> rfl

theorem statesDuring_disabled {s : ChatBoxState} {ops : List ChatOp} :
    ∀ st ∈ statesDuring s ops, st.disabled = s.disabled := by
  induction ops generalizing s with
  | nil =>
    intro st hst
    rcases List.mem_singleton.mp hst with rfl
    rfl
  | cons op rest ih =>
    intro st hst
    rcases List.mem_cons.mp hst with rfl | hmem
    · rfl
    · rw [ih st hmem, applyOp_preserves_disabled]

/-- Claim C6 (confirmed).  The `_disable_inputs` decorator wrapping `_chat`
(in `llm_chat copy.py`) disables the chat input before the body runs and
re-enables it only afterwards, and the body of `_chat` — replacing the user
row, appending the spinner, hiding history, streaming each token, running the
end-of-response callback, restoring history — only touches message content,
never the `disabled` flag.  Hence in every state observable while a model
response streams in, the chat input control is disabled, and it is re-enabled
exactly when the turn completes, so no second turn can be entered meanwhile. -/
theorem C6_input_disabled_during_turn :
    ∀ (input : String) (tokens shownHistory restoredHistory : List String)
      (s0 : ChatBoxState),
      (∀ st ∈ (disableInputsTrace
          (chatBody input tokens shownHistory restoredHistory) s0).1,
        st.disabled = true) ∧
      (disableInputsTrace
          (chatBody input tokens shownHistory restoredHistory) s0).2.disabled
        = false := by
  intro input tokens sh rh s0
  refine ⟨fun st hst => statesDuring_disabled st hst, rfl⟩

/-- Claim C6, witness: a concrete turn (two streamed tokens); the state after
the spinner is appended has the input disabled, and the final state has it
re-enabled. -/
theorem C6_input_disabled_during_turn_witness :
    ((disableInputsTrace (chatBody "hi" ["Hello", "Hello world"] [] [])
        { disabled := false, value := ["hi"] }).1.getD 2
      { disabled := false, value := [] }).disabled = true ∧
    (disableInputsTrace (chatBody "hi" ["Hello", "Hello world"] [] [])
        { disabled := false, value := ["hi"] }).2.disabled = false := by
  constructor
  · exact (C6_input_disabled_during_turn "hi" ["Hello", "Hello world"] [] []
      { disabled := false, value := ["hi"] }).1 _ (by decide)
  · exact (C6_input_disabled_during_turn "hi" ["Hello", "Hello world"] [] []
      { disabled := false, value := ["hi"] }).2

/-! ## C7: the namespace persists across runs, with no rollback -/

/-- Claim C7 (confirmed).  `run_code` always stores back the namespace that
`exec` produced — also when the call subsequently fails (missing function
name, bad callee, or an exception raised part-way through `exec`): no
rollback ever happens.  Concretely, running `b = 7` on a runtime expecting
`f` raises `KeyError('f')`, yet `b` stays bound in the namespace, and a later
`run_code` on the same runtime (`def f(): return b`) sees that binding and
returns `7`. -/
theorem C7_namespace_persistence :
    (∀ (rt : PythonCodeRunTime) (code : PySource), rt.validator = none →
      ((run_code rt code).2).«namespace» = (code.exec rt.«namespace»).1) ∧
    (run_code rtC7 assignBSrc).1 = .error (.keyError "f") ∧
    ((run_code rtC7 assignBSrc).2).«namespace» = [("b", .vInt 7)] ∧
    (run_code ((run_code rtC7 assignBSrc).2) defFReturnsBSrc).1
      = .ok (.vInt 7) := by
  refine ⟨?_, rfl, rfl, rfl⟩
  intro rt code hv
  rcases hx : code.exec rt.«namespace» with ⟨ns2, e⟩
  cases e with
  | some err => simp [run_code, compileFunction, hv, hx]
  | none =>
    rcases hg : nsGet ns2 rt.function_name with _ | f
    · simp [run_code, compileFunction, hv, hx, hg]
    · cases f <;> simp [run_code, compileFunction, hv, hx, hg]

/-- Claim C7, witness: the no-rollback statement applied to the concrete
first call. -/
theorem C7_namespace_persistence_witness :
    ((run_code rtC7 assignBSrc).2).«namespace»
      = (assignBSrc.exec rtC7.«namespace»).1 :=
  C7_namespace_persistence.1 rtC7 assignBSrc rfl

/-! ## C8: wrong function name raises a lookup failure -/

/-- Claim C8 (confirmed).  With no validator, running code that defines a
function under a name different from the configured one raises
`KeyError(function_name)` from the namespace lookup — `run_code` neither
silently succeeds nor returns a value.  Concretely, `def g(x): return x` on
a runtime expecting `eda_function` fails with `KeyError('eda_function')`. -/
theorem C8_wrong_name_raises :
    (∀ (rt : PythonCodeRunTime) (code : PySource) (ns2 : PyNamespace),
      rt.validator = none → code.exec rt.«namespace» = (ns2, none) →
      nsGet ns2 rt.function_name = none →
      (run_code rt code).1 = .error (.keyError rt.function_name)) ∧
    (run_code rtC8 defGSrc).1 = .error (.keyError "eda_function") ∧
    (∀ v : PyValue, (run_code rtC8 defGSrc).1 ≠ .ok v) := by
  refine ⟨?_, rfl, ?_⟩
  · intro rt code ns2 hv hexec hget
    simp [run_code, compileFunction, hv, hexec, hget]
  · intro v h
    rw [show (run_code rtC8 defGSrc).1
        = .error (.keyError "eda_function") from rfl] at h
    exact Except.noConfusion h

/-- Claim C8, witness: the general statement applied to the concrete runtime
and code. -/
theorem C8_wrong_name_raises_witness :
    (run_code rtC8 defGSrc).1 = .error (.keyError rtC8.function_name) :=
  C8_wrong_name_raises.1 rtC8 defGSrc
    [("x", .vInt 1), ("g", .vFunc .identityOfX)] rfl rfl rfl

/-! ## C10: malformed code escapes the validator's own failure type -/

/-- Claim C10 (confirmed).  With `check_imports` enabled, a syntactically
invalid code string makes `ast.parse` raise `SyntaxError`, which propagates
out of `validate` — it is not converted into a `PythonValidatorError`.  With
`check_imports` disabled, the same malformed string is never parsed and can
pass every remaining check. -/
theorem C10_syntax_error_escapes :
    (∀ (v : PythonValidator) (code : PySource), v.check_imports = true →
      code.parse = none →
      validate v code = .syntaxErr ∧ ∀ m, validate v code ≠ .pvError m) ∧
    validate defaultValidator malformedSrc = .syntaxErr ∧
    validate noImportCheckValidator malformedSrc = .ok := by
  refine ⟨?_, by decide, by decide⟩
  intro v code hc hp
  have hv : validate v code = .syntaxErr := by simp [validate, hc, hp]
  exact ⟨hv, fun m h => by rw [hv] at h; exact ValidateResult.noConfusion h⟩

/-- Claim C10, witness: the general statement applied to the default
validator and the malformed source. -/
theorem C10_syntax_error_escapes_witness :
    validate defaultValidator malformedSrc = .syntaxErr :=
  (C10_syntax_error_escapes.1 defaultValidator malformedSrc rfl rfl).1

end AatAi
